import Mathlib

/-!
A verification development for the muxfys repository (an S3-like object store
accessor, a local-filesystem test accessor, and the mount lifecycle around
them).  Go strings are embedded as lists of characters so that every
definition is executable by the kernel.  Pure functions from the Go sources
are translated directly; components of the repository whose sources are not
present here (the mount core, the unmount upload phase, the sparse interval
set) are modelled from the specification, as marked on each such definition.
-/

namespace Muxfys

/-- Go strings, embedded as lists of characters. -/
abbrev Str := List Char

/-- Decidable equality for Except values, so that concrete runs of the
fallible embedded functions can be checked by evaluation. -/
instance {ε α : Type} [DecidableEq ε] [DecidableEq α] : DecidableEq (Except ε α)
  | .ok a, .ok b => decidable_of_iff (a = b) (by simp)
  | .error a, .error b => decidable_of_iff (a = b) (by simp)
  | .ok _, .error _ => .isFalse (by simp)
  | .error _, .ok _ => .isFalse (by simp)

/-- Embeds Go strings.Split(s, "/"): splits on every slash, keeping empty
fields, and yields [""] on the empty string. -/
def splitSlash : Str → List Str
  | [] => [[]]
  | c :: rest =>
    if c = '/' then [] :: splitSlash rest
    else
      match splitSlash rest with
      | [] => [[c]]
      | p :: ps => (c :: p) :: ps

/-- Embeds Go strings.Join(elems, "/"). -/
def joinSlash : List Str → Str
  | [] => []
  | [e] => e
  | e :: rest => e ++ '/' :: joinSlash rest

/-- The element-stack phase of Go path.Clean: processes the slash-separated
elements left to right, dropping empty and "." elements and resolving ".."
against the stack (which is kept reversed). -/
def cleanElems (rooted : Bool) : List Str → List Str → List Str
  | stack, [] => stack
  | stack, p :: ps =>
    if p = [] ∨ p = ['.'] then cleanElems rooted stack ps
    else if p = ['.', '.'] then
      match stack with
      | [] => cleanElems rooted (if rooted then [] else [['.', '.']]) ps
      | top :: rest =>
        if top = ['.', '.'] then cleanElems rooted (p :: top :: rest) ps
        else cleanElems rooted rest ps
    else cleanElems rooted (p :: stack) ps

/-- Embeds Go path.Clean (equivalently filepath.Clean on a Unix system):
lexically simplifies a slash-separated path. -/
def goPathClean (p : Str) : Str :=
  if p = [] then ['.']
  else
    let rooted := p.take 1 = ['/']
    let elems := (cleanElems rooted [] (splitSlash p)).reverse
    let out := joinSlash elems
    if rooted then '/' :: out
    else if out = [] then ['.']
    else out

/-- Embeds Go path.Join (equivalently filepath.Join on a Unix system): skips
leading empty elements, joins the rest with slashes and cleans the result. -/
def goPathJoin : List Str → Str
  | [] => []
  | e :: rest => if e = [] then goPathJoin rest else goPathClean (joinSlash (e :: rest))

/-- RemoteAttr as produced by the accessors: the remote name, object size,
modification time (as a Unix timestamp) and content hash. -/
structure RemoteAttr where
  name : Str
  size : Int
  mtime : Int
  md5 : Str
  deriving Repr, DecidableEq

/-- One item received from minio's ListObjectsV2 channel: the object key and
its metadata, or an error carried in the err field. -/
structure ObjectInfo where
  key : Str
  size : Int
  lastModified : Int
  etag : Str
  err : Option Str
  deriving Repr, DecidableEq

/-- The state of an S3Accessor after construction (the minio client handle is
external and carries no data relevant to the embedded functions). -/
structure S3Accessor where
  bucket : Str
  target : Str
  host : Str
  basePath : Str
  deriving Repr, DecidableEq

/-- The loop body of S3Accessor.ListEntries from s3.go: consume the channel
items in order; on the first item carrying an error, discard everything
accumulated so far (ras = nil) and return that error; otherwise append a
RemoteAttr built from the item verbatim. -/
def s3ListLoop (acc : List RemoteAttr) : List ObjectInfo → List RemoteAttr × Option Str
  | [] => (acc, none)
  | oi :: rest =>
    match oi.err with
    | some e => ([], some e)
    | none =>
      s3ListLoop
        (acc ++ [{ name := oi.key, size := oi.size, mtime := oi.lastModified, md5 := oi.etag }])
        rest

/-- Embeds S3Accessor.ListEntries from s3.go, with the minio channel for the
requested dir given as the list of items it delivers. -/
def S3ListEntries (infos : List ObjectInfo) : List RemoteAttr × Option Str :=
  s3ListLoop [] infos

/-- The parsed URL components that url.Parse supplies to NewS3Accessor. -/
structure Url where
  host : Str
  path : Str
  deriving Repr, DecidableEq

/-- S3Config restricted to the field the embedded functions inspect. -/
structure S3Config where
  target : Str
  deriving Repr, DecidableEq

/-- Embeds NewS3Accessor from s3.go, with the result of url.Parse on the
target supplied as an argument: an empty Target is an error; the bucket is
the first slash-separated segment of the URL path after its first character
and the basePath is the path.Join of the remaining segments (both empty when
the path has at most one character); an empty bucket is an error. -/
def NewS3Accessor (config : S3Config) (u : Url) : Except Str S3Accessor :=
  if config.target = [] then .error ("no Target defined".toList)
  else
    let parts := if 1 < u.path.length then splitSlash (u.path.drop 1) else []
    let bucket := parts.headD []
    let basePath := if 1 < u.path.length then goPathJoin (parts.drop 1) else []
    if bucket = [] then
      .error ("no bucket could be determined from [".toList ++ config.target ++ "]".toList)
    else
      .ok { bucket := bucket, target := config.target, host := u.host, basePath := basePath }

/-- Embeds S3Accessor.LocalPath from s3.go: filepath.Join of the cache base
directory, the configured host, the bucket and the remote path. -/
def S3LocalPath (a : S3Accessor) (baseDir remotePath : Str) : Str :=
  goPathJoin [baseDir, a.host, a.bucket, remotePath]

/-- Embeds S3Accessor.RemotePath from s3.go. -/
def S3RemotePath (a : S3Accessor) (relPath : Str) : Str :=
  goPathJoin [a.basePath, relPath]

/-- One entry of the ioutil.ReadDir result that localAccessor.ListEntries
iterates over: the entry's base name (never containing a slash), whether it
is a directory, its size and its modification time. -/
structure LocalDirEntry where
  name : Str
  isDir : Bool
  size : Int
  mtime : Int
  deriving Repr, DecidableEq

/-- Embeds localAccessor.ListEntries from the test accessor: for each
directory-listing entry, the returned name is dir + name, with a slash
appended to the entry name first when the entry is a directory. -/
def localListEntries (dir : Str) (entries : List LocalDirEntry) : List RemoteAttr :=
  entries.map fun e =>
    { name := dir ++ (if e.isDir then e.name ++ ['/'] else e.name),
      size := e.size, mtime := e.mtime, md5 := [] }

/-- Embeds localAccessor.LocalPath from the test accessor: filepath.Join of
the cache base directory and the remote path, with nothing in between. -/
def localLocalPath (baseDir remotePath : Str) : Str :=
  goPathJoin [baseDir, remotePath]

/-- RemoteConfig restricted to the field the mount model inspects. -/
structure RemoteConfig where
  write : Bool
  deriving Repr, DecidableEq

/-- The mount-lifecycle state of a MuxFys instance: whether it is currently
mounted and which remotes are attached. -/
structure MuxFys where
  mounted : Bool
  remotes : List RemoteConfig
  deriving Repr, DecidableEq

/-- Modelled from the spec: the Mount method of MuxFys (muxfys.go is not among
the sources here, only its tests).  Mounting twice, mounting with no remote
configuration, and mounting with more than one writable remote each fail with
the dedicated error the tests exhibit; otherwise the remotes are attached and
the instance becomes mounted. -/
def Mount (fs : MuxFys) (rcs : List RemoteConfig) : Except Str MuxFys :=
  if fs.mounted then .error ("Can't mount more that once at a time".toList)
  else if rcs = [] then .error ("At least one RemoteConfig must be supplied".toList)
  else if 1 < (rcs.filter fun rc => rc.write).length then
    .error ("You can't have more than one writeable remote".toList)
  else .ok { mounted := true, remotes := rcs }

/-- Modelled from the spec: the state change of Unmount (tear down the FUSE
server); the attached remotes are kept so that Mount can be called again. -/
def UnmountState (fs : MuxFys) : MuxFys :=
  { fs with mounted := false }

/-- The states reachable from a fresh MuxFys instance by Mount and Unmount
transitions. -/
inductive Reachable : MuxFys → Prop
  | init : Reachable { mounted := false, remotes := [] }
  | mount (fs fs' : MuxFys) (rcs : List RemoteConfig) :
      Reachable fs → Mount fs rcs = .ok fs' → Reachable fs'
  | unmount (fs : MuxFys) : Reachable fs → Reachable (UnmountState fs)

/-- A dirty FileEntry as seen by the unmount upload phase: its remote path
and its modification time. -/
structure FileEntry where
  rpath : Str
  mtime : Int
  deriving Repr, DecidableEq

/-- Inserts a file entry into an mtime-sorted list, after every entry with a
strictly smaller mtime and before every entry with an equal or larger one, so
that earlier-inserted entries with equal mtimes stay first. -/
def insertByMtime (f : FileEntry) : List FileEntry → List FileEntry
  | [] => [f]
  | g :: rest => if g.mtime < f.mtime then g :: insertByMtime f rest else f :: g :: rest

/-- Modelled from the spec: the stable ascending sort by mtime that orders the
dirty FileEntries before the unmount upload phase. -/
def sortByMtime : List FileEntry → List FileEntry
  | [] => []
  | f :: rest => insertByMtime f (sortByMtime rest)

/-- Decimal digits of a natural number, as characters (fuel-driven so that
the kernel can evaluate it). -/
def natDigits : Nat → Nat → Str
  | 0, _ => []
  | fuel + 1, n => if n = 0 then [] else natDigits fuel (n / 10) ++ [Char.ofNat (48 + n % 10)]

/-- Decimal rendering of a natural number. -/
def natToStr (n : Nat) : Str :=
  if n = 0 then ['0'] else natDigits (n + 1) n

/-- The number of entries in the list whose upload fails. -/
def countFailures (uploadOk : FileEntry → Bool) (dirty : List FileEntry) : Nat :=
  (dirty.filter fun f => ¬ uploadOk f).length

/-- Modelled from the spec: the Unmount call.  When skipUpload is not set and
some attached remote is writable, the dirty entries are sorted by
mtime and uploaded sequentially; each failed upload is counted, never
panicked on, and a positive count n is summarised as the returned error
"failed to upload n files".  The instance always ends up unmounted. -/
def UnmountCall (fs : MuxFys) (skipUpload : Bool) (dirty : List FileEntry)
    (uploadOk : FileEntry → Bool) : MuxFys × Option Str :=
  let failures :=
    if skipUpload ∨ ¬ fs.remotes.any fun rc => rc.write then 0
    else countFailures uploadOk (sortByMtime dirty)
  (UnmountState fs,
   if 0 < failures then
     some ("failed to upload ".toList ++ natToStr failures ++ " files".toList)
   else none)

/-- Modelled from the spec: the signal handler armed by UnmountOnDeath.  On a
deadly signal it invokes Unmount and exits with code 1 when that unmount
succeeds and code 2 when it fails. -/
def deathExitCode (fs : MuxFys) (dirty : List FileEntry) (uploadOk : FileEntry → Bool) : Nat :=
  match (UnmountCall fs false dirty uploadOk).2 with
  | none => 1
  | some _ => 2

/-- A view of the local filesystem at one path: nothing there, a regular
file, or a directory with the given child names. -/
inductive FsNode
  | missing
  | file
  | dir (entries : List Str)

/-- Modelled from the spec: resolution of the configured mount point in New.
An empty Mount resolves to ./mnt; a leading "~/" is replaced by the home
directory; any other leading "~" cannot be expanded and is an error. -/
def resolveMount (mount home : Str) : Except Str Str :=
  if mount = [] then .ok ("./mnt".toList)
  else if mount.take 2 = "~/".toList then .ok (home ++ '/' :: mount.drop 2)
  else if mount.take 1 = ['~'] then .error ("cannot expand user-specific home dir".toList)
  else .ok mount

/-- Modelled from the spec: mount-point validation in New.  The resolved
mount path must be an empty directory (a missing one is created): a regular
file or a directory that already has entries is an InvalidMount error. -/
def NewFys (mount home : Str) (view : Str → FsNode) : Except Str Str :=
  match resolveMount mount home with
  | .error e => .error e
  | .ok mp =>
    match view mp with
    | .missing => .ok mp
    | .file => .error (mp ++ " exists but is not a directory".toList)
    | .dir entries =>
      if entries = [] then .ok mp
      else .error ("Mount directory ".toList ++ mp ++ " was not empty".toList)

/-- A half-open byte interval [start, stop). -/
structure Iv where
  start : Nat
  stop : Nat
  deriving Repr, DecidableEq

/-- Whether the byte offset n lies inside the interval. -/
def covers (iv : Iv) (n : Nat) : Prop :=
  iv.start ≤ n ∧ n < iv.stop

instance (iv : Iv) (n : Nat) : Decidable (covers iv n) :=
  inferInstanceAs (Decidable (iv.start ≤ n ∧ n < iv.stop))

/-- Whether the byte offset n lies inside some interval of the set. -/
def memSet (s : List Iv) (n : Nat) : Prop :=
  ∃ iv ∈ s, covers iv n

instance (s : List Iv) (n : Nat) : Decidable (memSet s n) :=
  inferInstanceAs (Decidable (∃ iv ∈ s, covers iv n))

/-- The insertion walk of add over the sorted interval list: a new interval
is placed before the first stored interval it ends strictly below, walked
past any stored interval it starts strictly above, and otherwise merged with
the stored interval it touches or overlaps, the merge being re-inserted so
that it can absorb further neighbours. -/
def addIv : List Iv → Iv → List Iv
  | [], iv => [iv]
  | x :: rest, iv =>
    if iv.stop < x.start then iv :: x :: rest
    else if x.stop < iv.start then x :: addIv rest iv
    else addIv rest ⟨min x.start iv.start, max x.stop iv.stop⟩

/-- Modelled from the spec: add([a,b)) on the sparse interval set (the
interval-set source is not among the sources here).  It coalesces with
neighbours that touch or overlap, and an empty range (a = b, to which we
assimilate a reversed range, which denotes no bytes either) is a no-op. -/
def add (s : List Iv) (iv : Iv) : List Iv :=
  if iv.stop ≤ iv.start then s else addIv s iv

/-- The interval set obtained from the empty set by the given sequence of
add calls. -/
def buildIvs (l : List Iv) : List Iv :=
  l.foldl add []

/-- Modelled from the spec: missing([a,b)) on the sparse interval set — the
ordered list of maximal sub-intervals of the query not yet present in the
(sorted, coalesced) set. -/
def missing : List Iv → Iv → List Iv
  | [], q => if q.start < q.stop then [q] else []
  | x :: rest, q =>
    if q.stop ≤ q.start then []
    else if q.stop ≤ x.start then [q]
    else if x.stop ≤ q.start then missing rest q
    else if q.start < x.start then
      ⟨q.start, x.start⟩ :: missing rest ⟨x.stop, q.stop⟩
    else missing rest ⟨x.stop, q.stop⟩

/-- The representation invariant of the interval set: every stored interval
is non-empty and consecutive intervals are separated by a strict gap (so no
two stored intervals touch or overlap). -/
def Inv : List Iv → Prop
  | [] => True
  | [x] => x.start < x.stop
  | x :: y :: rest => x.start < x.stop ∧ x.stop < y.start ∧ Inv (y :: rest)

theorem start_mk (a b : Nat) : (Iv.mk a b).start = a := rfl

theorem stop_mk (a b : Nat) : (Iv.mk a b).stop = b := rfl

theorem memSet_nil (n : Nat) : memSet [] n ↔ False := by
  simp [memSet]

theorem memSet_cons (x : Iv) (s : List Iv) (n : Nat) :
    memSet (x :: s) n ↔ covers x n ∨ memSet s n := by
  simp [memSet]

theorem mem_addIv (s : List Iv) (iv : Iv) (n : Nat) :
    memSet (addIv s iv) n ↔ memSet s n ∨ covers iv n := by
  induction s generalizing iv with
  | nil => simp [addIv, memSet_cons, memSet_nil, memSet]
  | cons x rest ih =>
    by_cases h1 : iv.stop < x.start
    · simp only [addIv, if_pos h1, memSet_cons]
      tauto
    · by_cases h2 : x.stop < iv.start
      · simp only [addIv, if_neg h1, if_pos h2, memSet_cons, ih]
        tauto
      · simp only [addIv, if_neg h1, if_neg h2, ih, memSet_cons]
        constructor
        · rintro (hm | hc)
          · left; right; exact hm
          · rcases hc with ⟨hle, hlt⟩
            simp only [covers] at *
            omega
        · rintro ((hx | hm) | hiv)
          · right; simp only [covers] at *; omega
          · left; exact hm
          · right; simp only [covers] at *; omega

theorem mem_add (s : List Iv) (iv : Iv) (n : Nat) :
    memSet (add s iv) n ↔ memSet s n ∨ covers iv n := by
  by_cases h : iv.stop ≤ iv.start
  · simp only [add, if_pos h]
    have : ¬ covers iv n := by simp only [covers]; omega
    tauto
  · simp only [add, if_neg h, mem_addIv]

theorem addIv_lb (b : Nat) :
    ∀ (s : List Iv) (iv : Iv), (∀ z ∈ s, b < z.start) → b < iv.start →
      ∀ z ∈ addIv s iv, b < z.start
  | [], iv, _, hiv => by
    intro w hw
    simp only [addIv, List.mem_singleton] at hw
    subst hw; exact hiv
  | x :: rest, iv, hs, hiv => by
    intro w hw
    by_cases h1 : iv.stop < x.start
    · simp only [addIv, if_pos h1, List.mem_cons] at hw
      rcases hw with rfl | hw
      · exact hiv
      · exact hs w (by simpa using hw)
    · by_cases h2 : x.stop < iv.start
      · simp only [addIv, if_neg h1, if_pos h2, List.mem_cons] at hw
        rcases hw with rfl | hw
        · exact hs w (by simp)
        · exact addIv_lb b rest iv (fun v hv => hs v (by simp [hv])) hiv w hw
      · simp only [addIv, if_neg h1, if_neg h2] at hw
        have hx : b < x.start := hs x (by simp)
        exact addIv_lb b rest _ (fun v hv => hs v (by simp [hv]))
          (by show b < min x.start iv.start; omega) w hw

theorem inv_head (x : Iv) (s : List Iv) (h : Inv (x :: s)) : x.start < x.stop := by
  cases s with
  | nil => exact h
  | cons y rest => exact h.1

theorem inv_tail (x : Iv) (s : List Iv) (h : Inv (x :: s)) : Inv s := by
  cases s with
  | nil => trivial
  | cons y rest => exact h.2.2

theorem inv_all (x : Iv) (s : List Iv) (h : Inv (x :: s)) :
    ∀ z ∈ s, x.stop < z.start := by
  induction s generalizing x with
  | nil => simp
  | cons y rest ih =>
    intro z hz
    rcases List.mem_cons.mp hz with rfl | hz
    · exact h.2.1
    · have hy := ih y h.2.2 z hz
      have : x.stop < y.start := h.2.1
      have : y.start < y.stop := inv_head y rest h.2.2
      omega

theorem inv_cons_intro (x : Iv) (s : List Iv) (hx : x.start < x.stop)
    (hs : Inv s) (hgap : ∀ z ∈ s, x.stop < z.start) : Inv (x :: s) := by
  cases s with
  | nil => exact hx
  | cons y rest => exact ⟨hx, hgap y (by simp), hs⟩

theorem addIv_inv (s : List Iv) (iv : Iv) (hs : Inv s) (hiv : iv.start < iv.stop) :
    Inv (addIv s iv) := by
  induction s generalizing iv with
  | nil => exact hiv
  | cons x rest ih =>
    by_cases h1 : iv.stop < x.start
    · simp only [addIv, if_pos h1]
      exact inv_cons_intro iv (x :: rest) hiv hs
        (by
          intro z hz
          rcases List.mem_cons.mp hz with rfl | hz
          · exact h1
          · have ha := inv_all x rest hs z hz
            have hb := inv_head x rest hs
            omega)
    · by_cases h2 : x.stop < iv.start
      · simp only [addIv, if_neg h1, if_pos h2]
        exact inv_cons_intro x (addIv rest iv) (inv_head x rest hs)
          (ih iv (inv_tail x rest hs) hiv)
          (addIv_lb x.stop rest iv (inv_all x rest hs) h2)
      · simp only [addIv, if_neg h1, if_neg h2]
        refine ih _ (inv_tail x rest hs) ?_
        have := inv_head x rest hs
        simp only [start_mk, stop_mk]
        omega

theorem add_inv (s : List Iv) (iv : Iv) (hs : Inv s) : Inv (add s iv) := by
  by_cases h : iv.stop ≤ iv.start
  · simpa only [add, if_pos h]
  · simp only [add, if_neg h]
    exact addIv_inv s iv hs (by omega)

theorem buildIvs_inv_aux (l : List Iv) (s : List Iv) (hs : Inv s) :
    Inv (l.foldl add s) := by
  induction l generalizing s with
  | nil => exact hs
  | cons iv rest ih => exact ih (add s iv) (add_inv s iv hs)

theorem buildIvs_inv (l : List Iv) : Inv (buildIvs l) :=
  buildIvs_inv_aux l [] trivial

theorem mem_buildIvs_aux (l : List Iv) (s : List Iv) (n : Nat) :
    memSet (l.foldl add s) n ↔ memSet s n ∨ ∃ iv ∈ l, covers iv n := by
  induction l generalizing s with
  | nil => simp
  | cons iv rest ih =>
    simp only [List.foldl_cons, ih, mem_add, List.exists_mem_cons_iff]
    tauto

theorem mem_buildIvs (l : List Iv) (n : Nat) :
    memSet (buildIvs l) n ↔ ∃ iv ∈ l, covers iv n := by
  simpa [buildIvs, memSet_nil] using mem_buildIvs_aux l [] n

theorem missing_lb (s : List Iv) (q : Iv) :
    ∀ z ∈ missing s q, q.start ≤ z.start := by
  induction s generalizing q with
  | nil =>
    intro z hz
    simp only [missing] at hz
    split at hz
    · simp only [List.mem_singleton] at hz; subst hz; exact le_refl _
    · simp at hz
  | cons x rest ih =>
    intro z hz
    simp only [missing] at hz
    split at hz
    · simp at hz
    · split at hz
      · simp only [List.mem_singleton] at hz; subst hz; exact le_refl _
      · split at hz
        · exact ih q z hz
        · split at hz
          · rename_i hqe hqx hxq hql
            rcases List.mem_cons.mp hz with rfl | hz
            · exact le_refl _
            · have hlow : x.stop ≤ z.start := ih ⟨x.stop, q.stop⟩ z hz
              omega
          · rename_i hqe hqx hxq hql
            have hlow : x.stop ≤ z.start := ih ⟨x.stop, q.stop⟩ z hz
            omega

theorem missing_inv (s : List Iv) (q : Iv) (hs : Inv s) : Inv (missing s q) := by
  induction s generalizing q with
  | nil =>
    simp only [missing]
    split
    · assumption
    · trivial
  | cons x rest ih =>
    have hxr := inv_tail x rest hs
    have hxh := inv_head x rest hs
    simp only [missing]
    split
    · trivial
    · split
      · rename_i hqe hqx
        show q.start < q.stop
        omega
      · split
        · exact ih q hxr
        · split
          · rename_i hqe hqx hxq hql
            refine inv_cons_intro _ _ hql (ih _ hxr) ?_
            intro z hz
            have h1 : x.stop ≤ z.start := missing_lb rest ⟨x.stop, q.stop⟩ z hz
            show x.start < z.start
            omega
          · exact ih _ hxr

theorem missing_mem (s : List Iv) (q : Iv) (n : Nat) (hs : Inv s) :
    memSet (missing s q) n ↔ covers q n ∧ ¬ memSet s n := by
  induction s generalizing q with
  | nil =>
    by_cases hq : q.start < q.stop
    · simp only [missing, if_pos hq, memSet_cons, memSet_nil, or_false, not_false_iff, and_true]
    · simp only [missing, if_neg hq, memSet_nil, false_iff, not_false_iff, and_true]
      rintro ⟨h1, h2⟩
      omega
  | cons x rest ih =>
    have hxr := inv_tail x rest hs
    have hxh := inv_head x rest hs
    have hall := inv_all x rest hs
    simp only [missing]
    split
    · rename_i hqe
      simp only [memSet_nil, false_iff]
      rintro ⟨⟨h1, h2⟩, -⟩
      omega
    · rename_i hqe
      split
      · rename_i hqx
        simp only [memSet_cons, memSet_nil, or_false, memSet_cons]
        constructor
        · intro hq
          obtain ⟨hq1, hq2⟩ : q.start ≤ n ∧ n < q.stop := hq
          refine ⟨⟨hq1, hq2⟩, ?_⟩
          rintro (⟨hx1, hx2⟩ | ⟨iv, hiv, hc1, hc2⟩)
          · omega
          · have := hall iv hiv
            omega
        · exact fun h => h.1
      · rename_i hqx
        split
        · rename_i hxq
          rw [ih q hxr]
          simp only [memSet_cons]
          constructor
          · rintro ⟨hq, hm⟩
            obtain ⟨hq1, hq2⟩ : q.start ≤ n ∧ n < q.stop := hq
            refine ⟨⟨hq1, hq2⟩, ?_⟩
            rintro (⟨hx1, hx2⟩ | hm')
            · omega
            · exact hm hm'
          · rintro ⟨hq, hm⟩
            exact ⟨hq, fun hm' => hm (Or.inr hm')⟩
        · rename_i hxq
          split
          · rename_i hql
            rw [memSet_cons, ih _ hxr]
            constructor
            · rintro (hc | ⟨hc, hm⟩)
              · obtain ⟨hc1, hc2⟩ : q.start ≤ n ∧ n < x.start := hc
                refine ⟨⟨by omega, by omega⟩, ?_⟩
                rw [memSet_cons]
                rintro (⟨hx1, hx2⟩ | ⟨iv, hiv, hc3, hc4⟩)
                · omega
                · have := hall iv hiv
                  omega
              · obtain ⟨hc1, hc2⟩ : x.stop ≤ n ∧ n < q.stop := hc
                refine ⟨⟨by omega, by omega⟩, ?_⟩
                rw [memSet_cons]
                rintro (⟨hx1, hx2⟩ | hm')
                · omega
                · exact hm hm'
            · rintro ⟨⟨hq1, hq2⟩, hm⟩
              rw [memSet_cons] at hm
              by_cases hn : n < x.start
              · exact Or.inl ⟨hq1, hn⟩
              · have hxn : x.stop ≤ n := by
                  by_contra hns
                  exact hm (Or.inl ⟨by omega, by omega⟩)
                exact Or.inr ⟨⟨hxn, hq2⟩, fun hm' => hm (Or.inr hm')⟩
          · rename_i hqge
            rw [ih _ hxr]
            constructor
            · rintro ⟨hc, hm⟩
              obtain ⟨hc1, hc2⟩ : x.stop ≤ n ∧ n < q.stop := hc
              refine ⟨⟨by omega, by omega⟩, ?_⟩
              rw [memSet_cons]
              rintro (⟨hx1, hx2⟩ | hm')
              · omega
              · exact hm hm'
            · rintro ⟨⟨hq1, hq2⟩, hm⟩
              rw [memSet_cons] at hm
              have hxn : x.stop ≤ n := by
                by_contra hns
                exact hm (Or.inl ⟨by omega, by omega⟩)
              exact ⟨⟨hxn, hq2⟩, fun hm' => hm (Or.inr hm')⟩

theorem insertByMtime_perm (f : FileEntry) (l : List FileEntry) :
    (insertByMtime f l).Perm (f :: l) := by
  induction l with
  | nil => simp [insertByMtime]
  | cons g rest ih =>
    by_cases h : g.mtime < f.mtime
    · simp only [insertByMtime, if_pos h]
      exact (ih.cons g).trans (List.Perm.swap f g rest)
    · simp only [insertByMtime, if_neg h]
      exact List.Perm.refl _

theorem sortByMtime_perm (l : List FileEntry) : (sortByMtime l).Perm l := by
  induction l with
  | nil => simp [sortByMtime]
  | cons f rest ih =>
    exact (insertByMtime_perm f (sortByMtime rest)).trans (ih.cons f)

theorem mem_insertByMtime (f g : FileEntry) (l : List FileEntry) :
    g ∈ insertByMtime f l ↔ g = f ∨ g ∈ l := by
  rw [(insertByMtime_perm f l).mem_iff]
  simp

theorem insertByMtime_sorted (f : FileEntry) (l : List FileEntry)
    (hl : l.Sorted fun a b => a.mtime ≤ b.mtime) :
    (insertByMtime f l).Sorted fun a b => a.mtime ≤ b.mtime := by
  induction l with
  | nil => simp [insertByMtime]
  | cons g rest ih =>
    rw [List.sorted_cons] at hl
    by_cases h : g.mtime < f.mtime
    · simp only [insertByMtime, if_pos h]
      rw [List.sorted_cons]
      refine ⟨?_, ih hl.2⟩
      intro b hb
      rcases (mem_insertByMtime f b rest).mp hb with rfl | hb
      · omega
      · exact hl.1 b hb
    · simp only [insertByMtime, if_neg h]
      rw [List.sorted_cons]
      refine ⟨?_, List.sorted_cons.mpr hl⟩
      intro b hb
      rcases List.mem_cons.mp hb with rfl | hb
      · omega
      · have := hl.1 b hb
        omega

theorem sortByMtime_sorted (l : List FileEntry) :
    (sortByMtime l).Sorted fun a b => a.mtime ≤ b.mtime := by
  induction l with
  | nil => simp [sortByMtime]
  | cons f rest ih => exact insertByMtime_sorted f (sortByMtime rest) ih

theorem insertByMtime_filter (f : FileEntry) (l : List FileEntry) (t : Int) :
    (insertByMtime f l).filter (fun g => decide (g.mtime = t))
      = if f.mtime = t then f :: l.filter (fun g => decide (g.mtime = t))
        else l.filter (fun g => decide (g.mtime = t)) := by
  induction l with
  | nil =>
    simp only [insertByMtime, List.filter]
    by_cases h : f.mtime = t <;> simp [h]
  | cons g rest ih =>
    by_cases h : g.mtime < f.mtime
    · simp only [insertByMtime, if_pos h, List.filter_cons, ih]
      by_cases hf : f.mtime = t
      · have hg : ¬ g.mtime = t := by omega
        simp [hf, hg]
      · simp [hf]
    · simp only [insertByMtime, if_neg h, List.filter_cons]
      by_cases hf : f.mtime = t <;> simp [hf]

theorem sortByMtime_filter (l : List FileEntry) (t : Int) :
    (sortByMtime l).filter (fun g => decide (g.mtime = t))
      = l.filter (fun g => decide (g.mtime = t)) := by
  induction l with
  | nil => simp [sortByMtime]
  | cons f rest ih =>
    simp only [sortByMtime, insertByMtime_filter, List.filter_cons, ih]
    by_cases hf : f.mtime = t <;> simp [hf]

theorem countFailures_sortByMtime (uploadOk : FileEntry → Bool) (l : List FileEntry) :
    countFailures uploadOk (sortByMtime l) = countFailures uploadOk l :=
  ((sortByMtime_perm l).filter _).length_eq

theorem mount_ok_inv (fs fs' : MuxFys) (rcs : List RemoteConfig)
    (h : Mount fs rcs = .ok fs') :
    fs' = { mounted := true, remotes := rcs }
      ∧ (rcs.filter fun rc => rc.write).length ≤ 1 := by
  unfold Mount at h
  split_ifs at h with h1 h2 h3 <;>
    first
      | exact Except.noConfusion h
      | exact ⟨(Except.ok.inj h).symm, by omega⟩

/-- C3: if more than one remote configuration passed to Mount has write set,
the mount fails with the dedicated error shown by the tests, no new mounted
state is produced, and consequently every state reachable through Mount and
Unmount transitions has at most one writable remote attached. -/
theorem mount_single_writer (fs : MuxFys) (rcs : List RemoteConfig)
    (hm : fs.mounted = false)
    (hw : 1 < (rcs.filter fun rc => rc.write).length) :
    Mount fs rcs = .error ("You can't have more than one writeable remote".toList)
  ∧ (∀ fs', Mount fs rcs ≠ .ok fs')
  ∧ (∀ g, Reachable g → (g.remotes.filter fun rc => rc.write).length ≤ 1) := by
  have hne : rcs ≠ [] := by
    intro h
    subst h
    simp at hw
  refine ⟨?_, ?_, ?_⟩
  · unfold Mount
    rw [if_neg (by simp [hm]), if_neg hne, if_pos hw]
  · intro fs' hok
    have := (mount_ok_inv fs fs' rcs hok).2
    omega
  · intro g hg
    induction hg with
    | init => simp
    | mount fs1 fs1' rcs1 _ hok _ =>
      obtain ⟨rfl, hle⟩ := mount_ok_inv fs1 fs1' rcs1 hok
      exact hle
    | unmount fs1 _ ih => exact ih

/-- Closed instance of the C3 theorem: two writable remote configurations
are rejected from a fresh unmounted state. -/
theorem mount_single_writer_witness :
    ({ mounted := false, remotes := [] } : MuxFys).mounted = false
  ∧ 1 < ([⟨true⟩, ⟨true⟩].filter fun rc : RemoteConfig => rc.write).length
  ∧ Mount { mounted := false, remotes := [] } [⟨true⟩, ⟨true⟩]
      = .error ("You can't have more than one writeable remote".toList) :=
  ⟨by decide, by decide,
    (mount_single_writer { mounted := false, remotes := [] } [⟨true⟩, ⟨true⟩]
      (by decide) (by decide)).1⟩

/-- C4: a resolved mount path that is a regular file, or a directory that
already has entries, makes mount construction fail with an InvalidMount
error; the empty mount string resolves to ./mnt and a leading tilde-slash is
expanded to the home directory. -/
theorem mount_point_validation (mount home mp : Str) (view : Str → FsNode)
    (hres : resolveMount mount home = .ok mp) :
    (view mp = .file → ∃ e, NewFys mount home view = .error e)
  ∧ (∀ es, es ≠ [] → view mp = .dir es → ∃ e, NewFys mount home view = .error e)
  ∧ resolveMount [] home = .ok ("./mnt".toList)
  ∧ (∀ rest, resolveMount ('~' :: '/' :: rest) home = .ok (home ++ '/' :: rest)) := by
  have heq : NewFys mount home view
      = match view mp with
        | .missing => .ok mp
        | .file => .error (mp ++ " exists but is not a directory".toList)
        | .dir entries =>
          if entries = [] then .ok mp
          else .error ("Mount directory ".toList ++ mp ++ " was not empty".toList) := by
    unfold NewFys
    rw [hres]
  refine ⟨?_, ?_, ?_, ?_⟩
  · intro hv
    refine ⟨mp ++ " exists but is not a directory".toList, ?_⟩
    rw [heq, hv]
  · intro es hes hv
    refine ⟨"Mount directory ".toList ++ mp ++ " was not empty".toList, ?_⟩
    rw [heq, hv]
    simp [hes]
  · simp [resolveMount]
  · intro rest
    simp [resolveMount]

/-- Closed instance of the C4 theorem: a mount point that is a non-empty
directory is rejected. -/
theorem mount_point_validation_witness :
    resolveMount ("mnt1".toList) ("home".toList) = .ok ("mnt1".toList)
  ∧ (∃ e, NewFys ("mnt1".toList) ("home".toList)
      (fun _ => FsNode.dir ["f".toList]) = .error e) :=
  ⟨by decide,
    (mount_point_validation ("mnt1".toList) ("home".toList) ("mnt1".toList)
        (fun _ => FsNode.dir ["f".toList]) (by decide)).2.1
      ["f".toList] (by decide) rfl⟩

/-- C5: at unmount in write mode, when n of the dirty-file uploads fail the
returned error message is "failed to upload n files"; failures are counted
(the model is a total function, so nothing panics), and when every upload
succeeds no error is returned. -/
theorem unmount_upload_failures (fs : MuxFys) (dirty : List FileEntry)
    (uploadOk : FileEntry → Bool)
    (hw : (fs.remotes.any fun rc => rc.write) = true) :
    (∀ n, countFailures uploadOk dirty = n → 0 < n →
      (UnmountCall fs false dirty uploadOk).2
        = some ("failed to upload ".toList ++ natToStr n ++ " files".toList))
  ∧ (countFailures uploadOk dirty = 0 →
      (UnmountCall fs false dirty uploadOk).2 = none) := by
  have hcount : countFailures uploadOk (sortByMtime dirty) = countFailures uploadOk dirty :=
    countFailures_sortByMtime uploadOk dirty
  constructor
  · intro n hn hpos
    simp [UnmountCall, hw, hcount, hn, hpos]
  · intro hz
    simp [UnmountCall, hw, hcount, hz]

/-- Closed instance of the C5 theorem: one failing upload yields the error
message "failed to upload 1 files", as the tests also show. -/
theorem unmount_upload_failures_witness :
    (({ mounted := true, remotes := [⟨true⟩] } : MuxFys).remotes.any fun rc => rc.write) = true
  ∧ (UnmountCall { mounted := true, remotes := [⟨true⟩] } false
      [{ rpath := "created.file".toList, mtime := 0 }] (fun _ => false)).2
      = some ("failed to upload ".toList ++ natToStr 1 ++ " files".toList) :=
  ⟨by decide,
    (unmount_upload_failures { mounted := true, remotes := [⟨true⟩] }
        [{ rpath := "created.file".toList, mtime := 0 }] (fun _ => false)
        (by decide)).1 1 (by decide) (by decide)⟩

/-- C6: the dirty FileEntries are uploaded sequentially in the order given by
the modelled unmount sort, which is a permutation of the dirty list in
non-decreasing mtime order, and which preserves the insertion order of
entries with equal mtimes (a stable ascending sort by mtime). -/
theorem unmount_upload_order (dirty : List FileEntry) :
    (sortByMtime dirty).Perm dirty
  ∧ (sortByMtime dirty).Sorted (fun a b => a.mtime ≤ b.mtime)
  ∧ ∀ t, (sortByMtime dirty).filter (fun g => decide (g.mtime = t))
        = dirty.filter (fun g => decide (g.mtime = t)) :=
  ⟨sortByMtime_perm dirty, sortByMtime_sorted dirty, fun t => sortByMtime_filter dirty t⟩

/-- C7: when a deadly signal fires after UnmountOnDeath armed the handler,
unmount is invoked and the process exits with code 1 exactly when that
unmount succeeded and with code 2 otherwise; exit code 0 never occurs on
this path. -/
theorem death_exit_codes (fs : MuxFys) (dirty : List FileEntry)
    (uploadOk : FileEntry → Bool) :
    (deathExitCode fs dirty uploadOk = 1 ∨ deathExitCode fs dirty uploadOk = 2)
  ∧ (deathExitCode fs dirty uploadOk = 1 ↔ (UnmountCall fs false dirty uploadOk).2 = none)
  ∧ deathExitCode fs dirty uploadOk ≠ 0 := by
  unfold deathExitCode
  cases h : (UnmountCall fs false dirty uploadOk).2 <;> simp

/-- C8: for any finite sequence of add calls on the initially empty interval
set, missing([0, max)) covers exactly the offsets below max not covered by
any added range, and is an ordered list of maximal sub-intervals (pairwise
separated by non-empty present gaps); the stored set itself stays coalesced
(no two stored intervals touch or overlap), and an empty range is a no-op
for add. -/
theorem interval_set_missing (l : List Iv) (maxB : Nat) :
    (∀ n, memSet (missing (buildIvs l) ⟨0, maxB⟩) n ↔ n < maxB ∧ ¬ ∃ iv ∈ l, covers iv n)
  ∧ Inv (missing (buildIvs l) ⟨0, maxB⟩)
  ∧ Inv (buildIvs l)
  ∧ (∀ (s : List Iv) (a : Nat), add s ⟨a, a⟩ = s) := by
  refine ⟨?_, missing_inv _ _ (buildIvs_inv l), buildIvs_inv l, ?_⟩
  · intro n
    rw [missing_mem _ _ _ (buildIvs_inv l), mem_buildIvs]
    constructor
    · rintro ⟨⟨h0, h1⟩, h2⟩
      exact ⟨h1, h2⟩
    · rintro ⟨h1, h2⟩
      exact ⟨⟨Nat.zero_le n, h1⟩, h2⟩
  · intro s a
    simp [add]

theorem s3ListLoop_none (infos : List ObjectInfo) :
    ∀ acc, (s3ListLoop acc infos).2 = none →
      (s3ListLoop acc infos).1
        = acc ++ infos.map fun oi =>
            ({ name := oi.key, size := oi.size, mtime := oi.lastModified,
               md5 := oi.etag } : RemoteAttr) := by
  induction infos with
  | nil =>
    intro acc _
    simp [s3ListLoop]
  | cons oi rest ih =>
    intro acc h
    cases he : oi.err with
    | some e => simp [s3ListLoop, he] at h
    | none =>
      simp only [s3ListLoop, he] at h ⊢
      rw [ih _ h]
      simp

theorem s3ListLoop_some (infos : List ObjectInfo) (e : Str) :
    ∀ acc, (s3ListLoop acc infos).2 = some e →
      (s3ListLoop acc infos).1 = [] ∧ infos.findSome? ObjectInfo.err = some e := by
  induction infos with
  | nil =>
    intro acc h
    simp [s3ListLoop] at h
  | cons oi rest ih =>
    intro acc h
    cases he : oi.err with
    | some e2 =>
      simp only [s3ListLoop, he] at h
      obtain rfl : e2 = e := by simpa using h
      constructor
      · simp [s3ListLoop, he]
      · simp [List.findSome?_cons, he]
    | none =>
      simp only [s3ListLoop, he] at h ⊢
      obtain ⟨h1, h2⟩ := ih _ h
      exact ⟨h1, by simp [List.findSome?_cons, he, h2]⟩

theorem newS3_ok_inv (config : S3Config) (u : Url) (a : S3Accessor)
    (h : NewS3Accessor config u = .ok a) :
    a.host = u.host ∧ a.target = config.target
      ∧ a.bucket = (splitSlash (u.path.drop 1)).headD []
      ∧ a.basePath = goPathJoin ((splitSlash (u.path.drop 1)).drop 1)
      ∧ 1 < u.path.length ∧ a.bucket ≠ [] := by
  unfold NewS3Accessor at h
  by_cases ht : config.target = []
  · rw [if_pos ht] at h
    exact Except.noConfusion h
  · rw [if_neg ht] at h
    by_cases hl : 1 < u.path.length
    · simp only [if_pos hl] at h
      by_cases hb : (splitSlash (u.path.drop 1)).headD [] = []
      · rw [if_pos hb] at h
        exact Except.noConfusion h
      · rw [if_neg hb] at h
        obtain rfl := (Except.ok.inj h).symm
        exact ⟨rfl, rfl, rfl, rfl, hl, hb⟩
    · simp only [if_neg hl] at h
      simp at h

theorem headD_short (u : Url) (hl : ¬ 1 < u.path.length) :
    (splitSlash (u.path.drop 1)).headD [] = [] := by
  have hd : u.path.drop 1 = [] := List.drop_eq_nil_of_le (by omega)
  rw [hd]
  rfl

/-- C1 counterexample: listing the directory "d/" over a single subdirectory
child named "sub", the local accessor returns the dir-prefixed full name
"d/sub/", not the name "sub/" relative to the listed directory that the
claim requires. -/
theorem listEntries_not_relative :
    (localListEntries ("d/".toList)
        [{ name := "sub".toList, isDir := true, size := 0, mtime := 3 }]).map RemoteAttr.name
      = ["d/sub/".toList]
  ∧ "d/sub/".toList ≠ "sub/".toList := by
  constructor
  · decide
  · decide

/-- C1 amended: each listing returns one RemoteAttr per immediate child with
the full remote name (the dir prefix included): the local accessor returns
dir + name with a trailing slash appended exactly when the child is a
subdirectory, and the S3 accessor passes the minio object keys through
verbatim (so a trailing slash appears exactly when the listing reports
one). -/
theorem listEntries_full_names (dir : Str) (entries : List LocalDirEntry)
    (infos : List ObjectInfo) :
    ((localListEntries dir entries).map RemoteAttr.name
        = entries.map fun e => dir ++ e.name ++ (if e.isDir then ['/'] else []))
  ∧ (∀ e ∈ entries, e.name ≠ [] → e.name.getLast? ≠ some '/' →
      ((dir ++ e.name ++ (if e.isDir then ['/'] else [])).getLast? = some '/'
        ↔ e.isDir = true))
  ∧ ((S3ListEntries infos).2 = none →
      (S3ListEntries infos).1.map RemoteAttr.name = infos.map ObjectInfo.key) := by
  refine ⟨?_, ?_, ?_⟩
  · simp only [localListEntries, List.map_map]
    apply List.map_congr_left
    intro e _
    by_cases hd : e.isDir <;> simp [hd]
  · intro e _ hne hnl
    by_cases hd : e.isDir
    · rw [if_pos hd,
        List.getLast?_append_of_ne_nil (dir ++ e.name) (show (['/'] : Str) ≠ [] by simp)]
      simp [hd]
    · rw [if_neg hd, List.append_nil, List.getLast?_append_of_ne_nil dir hne]
      simp [hnl, hd]
  · intro h
    rw [S3ListEntries, s3ListLoop_none infos [] h]
    simp [List.map_map, Function.comp]

/-- A concrete subdirectory entry used by the C1 closed instances. -/
def subEntry : LocalDirEntry :=
  { name := "sub".toList, isDir := true, size := 0, mtime := 3 }

/-- A concrete error-free minio listing item used by the closed instances. -/
def infoOk : ObjectInfo :=
  { key := "p/k1".toList, size := 1, lastModified := 2, etag := "e".toList, err := none }

/-- A concrete minio listing item carrying an error, used by the closed
instances. -/
def infoErr : ObjectInfo :=
  { key := "k2".toList, size := 3, lastModified := 4, etag := "e".toList,
    err := some ("boom".toList) }

/-- Closed instance of the C1 amended theorem at the counterexample input
plus an S3 listing, with every hypothesis discharged concretely. -/
theorem listEntries_full_names_witness :
    ((localListEntries ("d/".toList) [subEntry]).map RemoteAttr.name
      = [subEntry].map fun e => "d/".toList ++ e.name ++ (if e.isDir then ['/'] else []))
  ∧ ((("d/".toList ++ subEntry.name
        ++ (if subEntry.isDir then ['/'] else [])).getLast? = some '/')
      ↔ subEntry.isDir = true)
  ∧ (S3ListEntries [infoOk]).1.map RemoteAttr.name = [infoOk].map ObjectInfo.key :=
  ⟨(listEntries_full_names ("d/".toList) [subEntry] [infoOk]).1,
   (listEntries_full_names ("d/".toList) [subEntry] [infoOk]).2.1 subEntry
     (by decide) (by decide) (by decide),
   (listEntries_full_names ("d/".toList) [subEntry] [infoOk]).2.2 (by decide)⟩

/-- C2: for an S3Accessor successfully constructed from a target URL, the
local cache path is the path join of the cache base directory, the URL host,
the bucket (the first segment of the URL path) and the remote path; the
local accessor contributes no extra path components between its cache base
and the remote path. -/
theorem cache_path_layout (config : S3Config) (u : Url) (a : S3Accessor)
    (h : NewS3Accessor config u = .ok a) (baseDir remotePath : Str) :
    S3LocalPath a baseDir remotePath
      = goPathJoin [baseDir, u.host, (splitSlash (u.path.drop 1)).headD [], remotePath]
  ∧ localLocalPath baseDir remotePath = goPathJoin [baseDir, remotePath] := by
  obtain ⟨hh, -, hb, -, -, -⟩ := newS3_ok_inv config u a h
  constructor
  · rw [S3LocalPath, hh, hb]
  · rfl

/-- Closed instance of the C2 theorem on the documentation example target. -/
theorem cache_path_layout_witness :
    NewS3Accessor { target := "https://cog.domain.com/bucket/subpath".toList }
        { host := "cog.domain.com".toList, path := "/bucket/subpath".toList }
      = .ok { bucket := "bucket".toList,
              target := "https://cog.domain.com/bucket/subpath".toList,
              host := "cog.domain.com".toList, basePath := "subpath".toList }
  ∧ S3LocalPath
      { bucket := "bucket".toList,
        target := "https://cog.domain.com/bucket/subpath".toList,
        host := "cog.domain.com".toList, basePath := "subpath".toList }
      ("/base".toList) ("sub/file.txt".toList)
      = goPathJoin ["/base".toList, "cog.domain.com".toList,
          (splitSlash (("/bucket/subpath".toList).drop 1)).headD [],
          "sub/file.txt".toList] :=
  ⟨by decide,
   (cache_path_layout
      { target := "https://cog.domain.com/bucket/subpath".toList }
      { host := "cog.domain.com".toList, path := "/bucket/subpath".toList }
      { bucket := "bucket".toList,
        target := "https://cog.domain.com/bucket/subpath".toList,
        host := "cog.domain.com".toList, basePath := "subpath".toList }
      (by decide) ("/base".toList) ("sub/file.txt".toList)).1⟩

/-- C9: when the object-store listing stream carries an error, ListEntries
returns the nil listing together with the first such error: it never returns
a partial listing alongside an error. -/
theorem s3_list_error_nil (infos : List ObjectInfo) (e : Str)
    (h : (S3ListEntries infos).2 = some e) :
    (S3ListEntries infos).1 = [] ∧ infos.findSome? ObjectInfo.err = some e :=
  s3ListLoop_some infos e [] h

/-- Closed instance of the C9 theorem: an error arriving after one good item
yields the empty listing and that error. -/
theorem s3_list_error_nil_witness :
    (S3ListEntries [infoOk, infoErr]).2 = some ("boom".toList)
  ∧ (S3ListEntries [infoOk, infoErr]).1 = [] :=
  ⟨by decide, (s3_list_error_nil [infoOk, infoErr] ("boom".toList) (by decide)).1⟩

/-- C10: NewS3Accessor fails when the configured Target is empty or when the
URL path yields no bucket segment; otherwise it succeeds with the bucket
equal to the first segment of the URL path and the basePath equal to the
path join of the remaining segments. -/
theorem new_s3_accessor_parse (config : S3Config) (u : Url) :
    (config.target = [] → NewS3Accessor config u = .error ("no Target defined".toList))
  ∧ ((splitSlash (u.path.drop 1)).headD [] = [] →
      ∃ e, NewS3Accessor config u = .error e)
  ∧ (config.target ≠ [] → (splitSlash (u.path.drop 1)).headD [] ≠ [] →
      NewS3Accessor config u
        = .ok { bucket := (splitSlash (u.path.drop 1)).headD [],
                target := config.target, host := u.host,
                basePath := goPathJoin ((splitSlash (u.path.drop 1)).drop 1) }) := by
  refine ⟨?_, ?_, ?_⟩
  · intro ht
    unfold NewS3Accessor
    rw [if_pos ht]
  · intro hb
    by_cases ht : config.target = []
    · exact ⟨_, by unfold NewS3Accessor; rw [if_pos ht]⟩
    · refine ⟨"no bucket could be determined from [".toList ++ config.target
        ++ "]".toList, ?_⟩
      unfold NewS3Accessor
      rw [if_neg ht]
      by_cases hl : 1 < u.path.length
      · simp only [if_pos hl]
        rw [if_pos hb]
      · simp only [if_neg hl]
        simp
  · intro ht hb
    have hl : 1 < u.path.length := by
      by_contra hl
      exact hb (headD_short u hl)
    unfold NewS3Accessor
    rw [if_neg ht]
    simp only [if_pos hl]
    rw [if_neg hb]

/-- Closed instance of the C10 theorem: the three behaviours at concrete
configurations. -/
theorem new_s3_accessor_parse_witness :
    NewS3Accessor { target := [] } { host := "h".toList, path := "/b/x".toList }
      = .error ("no Target defined".toList)
  ∧ (∃ e, NewS3Accessor { target := "https://h/".toList }
      { host := "h".toList, path := "/".toList } = .error e)
  ∧ NewS3Accessor { target := "https://h/b/x/y".toList }
      { host := "h".toList, path := "/b/x/y".toList }
      = .ok { bucket := (splitSlash (("/b/x/y".toList).drop 1)).headD [],
              target := "https://h/b/x/y".toList, host := "h".toList,
              basePath := goPathJoin ((splitSlash (("/b/x/y".toList).drop 1)).drop 1) } :=
  ⟨(new_s3_accessor_parse { target := [] }
      { host := "h".toList, path := "/b/x".toList }).1 rfl,
   (new_s3_accessor_parse { target := "https://h/".toList }
      { host := "h".toList, path := "/".toList }).2.1 (by decide),
   (new_s3_accessor_parse { target := "https://h/b/x/y".toList }
      { host := "h".toList, path := "/b/x/y".toList }).2.2 (by decide) (by decide)⟩

end Muxfys
